import Mathlib

/-!
Verification development for the Qwen-Image-Description annotation engine
(`src/scripts/qwen_description.py` and `src/scripts/qwen_description_chinese.py`).

Python strings are embedded as `List Char`; the relevant Python string
operations (`strip`, `split`, `lower`, …) are re-defined below following
CPython semantics restricted to ASCII whitespace and ASCII case mapping,
which covers every character class the claims exercise.
-/

namespace QwenDesc

/-- Characters stripped by Python `str.strip()` / split by `str.split()`
(ASCII whitespace subset). -/
def isPySpace (c : Char) : Bool :=
  c == ' ' || c == '\t' || c == '\n' || c == '\r' || c == '\x0b' || c == '\x0c'

/-- Convenience: the character list of a string literal. -/
def toChars (s : String) : List Char := s.data

/-- Python `str.lstrip()`. -/
def ltrim (l : List Char) : List Char := l.dropWhile isPySpace

/-- Python `str.rstrip()`. -/
def rstrip (l : List Char) : List Char := (l.reverse.dropWhile isPySpace).reverse

/-- Python `str.strip()`. -/
def pyStrip (l : List Char) : List Char := rstrip (ltrim l)

/-- Python `str.split(sep)` for a one-character separator: always returns at
least one (possibly empty) part. -/
def splitOnChar (sep : Char) : List Char → List (List Char)
  | [] => [[]]
  | c :: rest =>
      let r := splitOnChar sep rest
      if c = sep then [] :: r
      else
        match r with
        | [] => [[c]]
        | h :: t => (c :: h) :: t

/-- Accumulator-based worker for whitespace `str.split()`. -/
def splitWsAux : List Char → List Char → List (List Char)
  | [], acc => if acc = [] then [] else [acc.reverse]
  | c :: rest, acc =>
      if isPySpace c then
        if acc = [] then splitWsAux rest [] else acc.reverse :: splitWsAux rest []
      else splitWsAux rest (c :: acc)

/-- Python `str.split()` with no argument: split on whitespace runs,
discarding empty tokens. -/
def splitWs (l : List Char) : List (List Char) := splitWsAux l []

/-- Python `str.lower()` (ASCII case mapping). -/
def lowerStr (l : List Char) : List Char := l.map Char.toLower

/-- Python `a.startswith(b)` on character lists. -/
def startsWith : List Char → List Char → Bool
  | _, [] => true
  | [], _ :: _ => false
  | a :: as', b :: bs => a == b && startsWith as' bs

/-- Python `needle in hay` substring test on character lists. -/
def hasSubstr (hay needle : List Char) : Bool :=
  startsWith hay needle ||
    match hay with
    | [] => false
    | _ :: t => hasSubstr t needle

/-- Python `str.capitalize`-style first-character upper-casing used by the scripts:
`description[0].upper() + description[1:]`. -/
def capFirst : List Char → List Char
  | [] => []
  | c :: rest => c.toUpper :: rest

/-! ## ResponseParser: `QwenDescriber.extract_points`
(`src/scripts/qwen_description.py`, lines 104–120; the Chinese variant is
textually identical). -/

/-- The body of the per-line loop of `extract_points`: `none` when the
stripped line is empty (the line is skipped), otherwise the produced
`[description, status]` record. -/
def lineToPoint (line : List Char) : Option (List Char × List Char) :=
  let l := pyStrip line
  if l = [] then none
  else
    match splitOnChar ',' l with
    | p0 :: p1 :: _ => some (pyStrip p0, pyStrip p1)
    | _ => some (l, toChars "no")

/-- The parser `extract_points`: split the model response on newlines and turn each
non-empty stripped line into a `[description, status]` record. -/
def extract_points (text : List Char) : List (List Char × List Char) :=
  (splitOnChar '\n' text).filterMap lineToPoint

/-! ## Status classification in `_annotate_image` and the scheduler sort
(`src/scripts/qwen_description.py`, lines 356–358 and 420–427). -/

/-- Status normalization `x.replace(' ', '').replace(".", "").lower()`. -/
def normalizeStatus (s : List Char) : List Char :=
  lowerStr ((s.filter (fun c => c != ' ')).filter (fun c => c != '.'))

/-- The list `no_values = ['no', '否']` as fixed inside `_annotate_image` (line 421). -/
def noValuesAnn : List (List Char) := [toChars "no", toChars "否"]

/-- The list `yes_values = ['yes', '是']` (line 422). -/
def yesValuesAnn : List (List Char) := [toChars "yes", toChars "是"]

/-- The `is_description_only` test of `_annotate_image` (line 425). -/
def isDescTok (st : List Char) : Bool := decide (normalizeStatus st ∈ noValuesAnn)

/-- The actionable test of `_annotate_image` (line 427). -/
def isYesTok (st : List Char) : Bool := decide (normalizeStatus st ∈ yesValuesAnn)

/-- Sort-time `no_values` (line 357): language-dependent, `['no','否']` for
Chinese and `['no']` otherwise. -/
def noValuesSort (language : List Char) : List (List Char) :=
  if language = toChars "chinese" then [toChars "no", toChars "否"] else [toChars "no"]

/-- The scheduler's sort key (line 358): `0` for a recognized non-actionable
token, `1` otherwise. -/
def sortKeyPoint (language : List Char) (p : List Char × List Char) : Nat :=
  if normalizeStatus p.2 ∈ noValuesSort language then 0 else 1

/-- Stable insertion of one element into a key-sorted list (an element is
placed before the first element of strictly greater or equal-with-later-rank
key — i.e. before the first element whose key is ≥ its own, matching the
stable behaviour of Python's `list.sort`). -/
def insByKey (key : List Char × List Char → Nat) (a : List Char × List Char) :
    List (List Char × List Char) → List (List Char × List Char)
  | [] => [a]
  | b :: l => if key a ≤ key b then a :: b :: l else b :: insByKey key a l

/-- Stable sort by key, modelling `points.sort(key=...)`. -/
def sortPoints (language : List Char) :
    List (List Char × List Char) → List (List Char × List Char)
  | [] => []
  | a :: l => insByKey (sortKeyPoint language) a (sortPoints language l)

/-! ## LayoutEngine: the cursor state machine of `_annotate_image`
(`src/scripts/qwen_description.py`, lines 404–549).

Box heights are `42 * number of wrapped lines` (line 460 and the
measurement loop at lines 464–474); a non-actionable (or unrecognized)
record always renders the two-line `["Description:", "- …"]` block
(lines 448–453), an actionable record renders `wrap_text_lines` output of
arbitrary line count. Widths are the measured `max_width`, arbitrary. -/

/-- One observation record as seen by the layout stage: its status token,
its measured text width in pixels, and the number of wrapped lines its
block has when it is actionable. -/
structure RecordIn where
  status : List Char
  w : Nat
  nLines : Nat
deriving Repr, DecidableEq

/-- Box height `total_height`: 42 px per wrapped line; exactly two lines for a
non-actionable block. -/
def recHeight (r : RecordIn) : Int :=
  if isYesTok r.status then 42 * r.nLines else 42 * 2

/-- The layout cursor: `current_x_position` (`none` models Python `None` in
right-alignment mode), `current_y_position`, `description_only_column_count`
and `row_max_height`. -/
structure LayoutState where
  x : Option Int
  y : Int
  col : Nat
  rowMax : Int
deriving Repr, DecidableEq

/-- A background panel rectangle `(x0, y0, x1, y1)` as passed to
`rounded_rectangle` (lines 488–493). -/
structure Rect where
  x0 : Int
  y0 : Int
  x1 : Int
  y1 : Int
deriving Repr, DecidableEq

def alignRight : List Char := toChars "right"

def alignLeft : List Char := toChars "left"

/-- One iteration of the `for point in points` loop of `_annotate_image`,
restricted to its layout effect: returns the updated cursor and the panel
rectangle drawn for this record. -/
def annotateStep (align : List Char) (imgW : Int) (s : LayoutState) (r : RecordIn) :
    LayoutState × Rect :=
  let h : Int := recHeight r
  -- actionable pre-flush of a half-filled 2-up row (lines 427–433)
  let s1 : LayoutState :=
    if isYesTok r.status = true ∧ 0 < s.col then
      { x := some 60, y := s.y + s.rowMax + 80, col := 0, rowMax := 0 }
    else s
  -- text x position (lines 476–481)
  let tx : Int :=
    if align = alignRight then imgW - (r.w : Int) - 60 - 70
    else s1.x.getD 60
  -- background rectangle (lines 487–493)
  let rect : Rect := ⟨tx - 35, s1.y - 35, tx + (r.w : Int) + 35, s1.y + h + 20⟩
  -- cursor update (lines 517–549)
  if isDescTok r.status = true then
    let col2 := s1.col + 1
    let rm2 := max s1.rowMax h
    if align = alignRight then
      ({ x := none, y := s1.y + h + 20 + 35 + 40, col := 0, rowMax := 0 }, rect)
    else if 2 ≤ col2 then
      ({ x := some 60, y := s1.y + rm2 + 80, col := 0, rowMax := 0 }, rect)
    else
      ({ x := s1.x.map (fun xv => xv + (r.w : Int) + 100), y := s1.y,
         col := col2, rowMax := rm2 }, rect)
  else
    ({ x := if align = alignRight then none else some 60,
       y := s1.y + h + 20 + 35 + 40, col := s1.col, rowMax := s1.rowMax }, rect)

/-- Initial cursor of one annotation pass (lines 404–414). -/
def initLayoutState (align : List Char) : LayoutState :=
  { x := if align = alignRight then none else some 60, y := 60, col := 0, rowMax := 0 }

/-- The panel rectangles produced for a record sequence from a given cursor. -/
def runAnnotateAux (align : List Char) (imgW : Int) :
    LayoutState → List RecordIn → List Rect
  | _, [] => []
  | s, r :: rs =>
      let sr := annotateStep align imgW s r
      sr.2 :: runAnnotateAux align imgW sr.1 rs

/-- All panel rectangles of one annotation pass, in drawing order. -/
def annotateRects (align : List Char) (imgW : Int) (records : List RecordIn) : List Rect :=
  runAnnotateAux align imgW (initLayoutState align) records

/-- The successive values of the y cursor along one pass (before each record
and after the last one). -/
def annotateYTrace (align : List Char) (imgW : Int) :
    LayoutState → List RecordIn → List Int
  | s, [] => [s.y]
  | s, r :: rs => s.y :: annotateYTrace align imgW (annotateStep align imgW s r).1 rs

/-- Two (closed, pixel-inclusive) rectangles intersect. -/
def rOverlap (a b : Rect) : Prop :=
  a.x0 ≤ b.x1 ∧ b.x0 ≤ a.x1 ∧ a.y0 ≤ b.y1 ∧ b.y0 ≤ a.y1

/-- Rectangle disjointness. -/
def rDisjoint (a b : Rect) : Prop := ¬ rOverlap a b

/-- The reachability invariant of the left-alignment layout loop relating the
cursor to the already drawn panel rectangles. -/
def leftInv (s : LayoutState) (placed : List Rect) : Prop :=
  (∃ xv : Int, s.x = some xv) ∧
  s.col ≤ 1 ∧
  (s.col = 0 → s.x = some 60 ∧ s.rowMax = 0) ∧
  (s.col = 1 → s.rowMax = 84) ∧
  ∀ rc ∈ placed, rc.y1 + 60 ≤ s.y ∨
    (s.col = 1 ∧ rc.y1 ≤ s.y + 104 ∧ rc.x1 + 65 ≤ s.x.getD 60)

/-! ## ObservationEnricher: the detection-merge loop of `process_and_annotate`
(`src/scripts/qwen_description.py`, lines 294–341). -/

/-- One parsed detector hit: the engine only tests for the presence of the
`"label"` and `"bbox_2d"` keys and uses the label. -/
structure DetectionIn where
  label : Option (List Char)
  hasBbox : Bool
deriving Repr, DecidableEq

/-- The label-simplification mapping (lines 326–334). -/
def simplified_label (label : List Char) : List Char :=
  let low := lowerStr label
  if hasSubstr low (toChars "bag")
      && (hasSubstr low (toChars "unattended") || hasSubstr low (toChars "alone")
          || hasSubstr low (toChars "no person")) then
    toChars "unattended bag"
  else if hasSubstr low (toChars "person")
      && (hasSubstr low (toChars "slot machine") || hasSubstr low (toChars "arcade"))
      && (hasSubstr low (toChars "not playing") || hasSubstr low (toChars "idle")
          || hasSubstr low (toChars "not engaging")) then
    toChars "person occupying a slot machine"
  else label

/-- The record appended for a fresh detection label (lines 336–339). -/
def detectionPoint (language l : List Char) : List Char × List Char :=
  if language = toChars "chinese" then
    (toChars "檢測到 " ++ simplified_label l, toChars "否")
  else
    (simplified_label l ++ toChars " detected", toChars "no")

/-- The `for detection in detections` loop (lines 320–339): accumulates the
appended records and the unique-label set (modelled as a duplicate-free list
in insertion order). -/
def enrichAux (language : List Char) : List DetectionIn → List (List Char) →
    List (List Char × List Char) × List (List Char)
  | [], labels => ([], labels)
  | d :: ds, labels =>
      match d.label, d.hasBbox with
      | some l, true =>
          if l ∈ labels then enrichAux language ds labels
          else
            let res := enrichAux language ds (labels ++ [l])
            (detectionPoint language l :: res.1, res.2)
      | _, _ => enrichAux language ds labels

/-- The detection block of `process_and_annotate` when detections are present:
`self.unique_labels = set()` (line 319) then the loop, records appended to the
already parsed points. -/
def enrichPoints (language : List Char) (dets : List DetectionIn)
    (points : List (List Char × List Char)) :
    List (List Char × List Char) × List (List Char) :=
  ((points ++ (enrichAux language dets []).1), (enrichAux language dets []).2)

/-- The effect of one `process_and_annotate` call on the `unique_labels`
field: it is re-initialised and refilled only inside
`if detections and len(detections) > 0:` (lines 303–341); with zero
detections the field keeps whatever the previous call left in it. -/
def updateUniqueLabelsOnCall (prev : List (List Char)) (language : List Char)
    (dets : List DetectionIn) : List (List Char) :=
  if dets = [] then prev else (enrichAux language dets []).2

/-! ## TextWrapper (English): `QwenDescriber.wrap_text_lines`
(`src/scripts/qwen_description.py`, lines 122–202). -/

/-- Generic list concatenation map (the accumulation of wrapped suggestion
items). -/
def concatMapL {α β : Type} (f : α → List β) : List α → List β
  | [] => []
  | a :: l => f a ++ concatMapL f l

/-- The greedy word-wrap loop shared by the description and suggestion
sections (lines 152–163, 175–186, 188–200): accumulate words into
`current_line`, flush when the stripped candidate would exceed `max_chars`
(never on a bare bullet), and finally append the last line unless it strips
to a bare dash. -/
def bulletWrapGo (maxChars : Nat) : List (List Char) → List Char → List (List Char)
  | [], cur => if pyStrip cur ≠ ['-'] then [rstrip cur] else []
  | w :: rest, cur =>
      let test := cur ++ w ++ [' ']
      if maxChars < (pyStrip test).length ∧ cur ≠ toChars "- " then
        rstrip cur :: bulletWrapGo maxChars rest (toChars "  " ++ w ++ [' '])
      else bulletWrapGo maxChars rest test

/-- The function `wrap_text_lines` of `qwen_description.py`: headers plus greedy word
wrapping of the description and of each line of the suggestion (a leading
dash on a suggestion line is stripped before re-wrapping). -/
def wrap_text_lines (description suggestion : List Char) (max_chars : Nat)
    (language : List Char) : List (List Char) :=
  let maxC := if language = toChars "chinese" then 30 else max_chars
  let descHeader := if language = toChars "chinese" then toChars "描述:"
    else toChars "Description:"
  let suggHeader := if language = toChars "chinese" then toChars "建議:"
    else toChars "Suggestion:"
  let descLines :=
    if description ≠ [] then
      let d := pyStrip description
      let d2 := if d ≠ [] ∧ language = toChars "english" then capFirst d else d
      bulletWrapGo maxC (splitWs d2) (toChars "- ")
    else []
  let suggLines := concatMapL (fun item =>
      let it := pyStrip item
      if it ≠ [] then
        if startsWith it ['-'] then
          bulletWrapGo maxC (splitWs (pyStrip (it.drop 1))) (toChars "- ")
        else
          bulletWrapGo maxC (splitWs it) (toChars "- ")
      else []) (splitOnChar '\n' suggestion)
  descHeader :: descLines ++ suggHeader :: suggLines

/-! ## TextWrapper (Chinese): `QwenDescriber_chinese.wrap_text_lines`
(`src/scripts/qwen_description_chinese.py`, lines 122–218).

The inner `while i < len(text)` loop of `wrap_chinese_text` does not advance
`i` when it meets an ASCII delimiter that is not a space or tab (the scanned
"word" is empty and only `' '`/`'\t'` advance the index), so the Python loop
diverges on such inputs. The loop is therefore modelled with explicit fuel:
`none` means the loop does not terminate. Every terminating run consumes at
least one character per iteration, so `text.length + 1` fuel is exact. -/

def isChineseChar (c : Char) : Bool := 0x4e00 ≤ c.toNat && c.toNat ≤ 0x9fff

/-- The delimiter set `' \n\t,.:;!?'` of the inner word scan. -/
def isCnDelim (c : Char) : Bool :=
  c == ' ' || c == '\n' || c == '\t' || c == ',' || c == '.' || c == ':' ||
    c == ';' || c == '!' || c == '?'

/-- The `while i < len(text)` loop of `wrap_chinese_text` (lines 142–181),
parameterized by the bullet prefix and the continuation indent. -/
def wrapChineseGo (maxLen : Nat) (pre ind : List Char) :
    Nat → List Char → List Char → Option (List (List Char))
  | 0, _, _ => none
  | _ + 1, [], cur =>
      some (if pyStrip cur ∉ [pyStrip pre, pyStrip ind] then [rstrip cur] else [])
  | fuel + 1, c :: rest, cur =>
      if isChineseChar c then
        if maxLen ≤ cur.length ∧ cur ≠ pre then
          (wrapChineseGo maxLen pre ind fuel rest (ind ++ [c])).map
            (fun ls => cur :: ls)
        else
          wrapChineseGo maxLen pre ind fuel rest (cur ++ [c])
      else
        let word := (c :: rest).takeWhile (fun ch => !(isCnDelim ch))
        let rest2 := (c :: rest).dropWhile (fun ch => !(isCnDelim ch))
        let cur2 := if maxLen < (cur ++ word).length ∧ cur ≠ pre then ind ++ word
          else cur ++ word
        let next :=
          match rest2 with
          | sp :: rest3 =>
              if sp == ' ' || sp == '\t' then (rest3, cur2 ++ [' '])
              else (rest2, cur2)
          | [] => (([] : List Char), cur2)
        let res := wrapChineseGo maxLen pre ind fuel next.1 next.2
        if maxLen < (cur ++ word).length ∧ cur ≠ pre then
          res.map (fun ls => rstrip cur :: ls)
        else res

/-- The function `wrap_chinese_text` (lines 133–182): `some lines` when the loop
terminates, `none` when it diverges. -/
def wrap_chinese_text (text : List Char) (maxLen : Nat) : Option (List (List Char)) :=
  if text = [] then some []
  else wrapChineseGo maxLen (toChars "- ") (toChars "  ") (text.length + 1) text
    (toChars "- ")

/-- The placeholder suggestions replaced wholesale by the fallback
(line 198). -/
def cnPlaceholders : List (List Char) :=
  [toChars "-...，-...，-...", toChars "-..., -..., -...", toChars "...", toChars "。。。"]

/-- The per-item skip set (line 205). -/
def cnSkipItems : List (List Char) :=
  [toChars "...", toChars "。。。", toChars "-...", toChars "-...,"]

/-- Non-overlapping occurrences of `"..."` (Python `item.count('...')`). -/
def count3dots : List Char → Nat
  | '.' :: '.' :: '.' :: rest => 1 + count3dots rest
  | _ :: rest => count3dots rest
  | [] => 0

/-- One iteration of the suggestion-item loop (lines 202–212): `some []` when
the item is skipped, otherwise the wrap of the cleaned item (the condition
`'...' in item and item.count('...') >= 2` is equivalent to the count being
at least 2). -/
def processCnItem (max_chars : Nat) (item : List Char) : Option (List (List Char)) :=
  let it := pyStrip item
  if it ≠ [] ∧ it ∉ cnSkipItems then
    let it2 := if startsWith it ['-'] then pyStrip (it.drop 1) else it
    if 2 ≤ count3dots it2 then some []
    else wrap_chinese_text it2 max_chars
  else some []

/-- The function `wrap_text_lines` of `qwen_description_chinese.py`: headers, wrapped
description, placeholder-filtered suggestion with the `請及時處理` fallback,
and the final catch-all default (lines 184–218). -/
def wrap_text_lines_chinese (description suggestion : List Char) (max_chars : Nat) :
    Option (List (List Char)) :=
  let descLines : Option (List (List Char)) :=
    if description ≠ [] then wrap_chinese_text (pyStrip description) max_chars
    else some []
  let sugg0 := pyStrip suggestion
  let sugg := if sugg0 = [] ∨ sugg0 ∈ cnPlaceholders then toChars "請及時處理" else sugg0
  let suggLines : Option (List (List Char)) :=
    (splitOnChar '\n' sugg).foldr (fun item acc =>
      match processCnItem max_chars item, acc with
      | some ls, some a => some (ls ++ a)
      | _, _ => none) (some [])
  match descLines, suggLines with
  | some dls, some sls =>
      let wrapped := toChars "描述:" :: dls ++ toChars "建議:" :: sls
      if wrapped.length
          = (wrapped.filter (fun w => startsWith w (toChars "描述:"))).length + 1 then
        match wrap_chinese_text (toChars "請及時處理") max_chars with
        | some extra => some (wrapped ++ extra)
        | none => none
      else some wrapped
  | _, _ => none

/-- A whitespace-split token: non-empty and free of whitespace. -/
def isWordTok (w : List Char) : Prop := w ≠ [] ∧ ∀ c ∈ w, isPySpace c = false

/-- A body line either fits the trimmed budget or is the bullet/indent prefix
followed by one single word. -/
def fitsOrSingleWord (maxC : Nat) (line : List Char) : Prop :=
  (pyStrip line).length ≤ maxC ∨
    ∃ w, isWordTok w ∧ (line = toChars "- " ++ w ∨ line = toChars "  " ++ w)

/-- Invariant of the `current_line` accumulator of the greedy wrap loop. -/
def bulletCurInv (maxC : Nat) (cur : List Char) : Prop :=
  cur = toChars "- " ∨ (pyStrip cur).length ≤ maxC ∨
    ∃ w, isWordTok w ∧
      (cur = toChars "- " ++ w ++ [' '] ∨ cur = toChars "  " ++ w ++ [' '])

/-- A delimiter-free token of the Chinese wrapper's inner word scan. -/
def cnTokOK (w : List Char) : Prop := w ≠ [] ∧ ∀ c ∈ w, isCnDelim c = false

/-- A line that consists of the bullet or indent prefix plus one single token
(possibly with a trailing space, or right-stripped). -/
def cnSingleTok (line : List Char) : Prop :=
  ∃ w, cnTokOK w ∧ ∃ b, (b = toChars "- " ++ w ∨ b = toChars "  " ++ w) ∧
    (line = b ∨ line = b ++ [' '] ∨ line = rstrip b)

/-- A line emitted by the Chinese wrapper either fits the budget after
right-stripping or is a single-token line. -/
def cnLineOk (maxLen : Nat) (line : List Char) : Prop :=
  (rstrip line).length ≤ maxLen ∨ cnSingleTok line

/-- Invariant of the `current_line` accumulator of the Chinese wrap loop. -/
def cnCurInv (maxLen : Nat) (cur : List Char) : Prop :=
  (rstrip cur).length ≤ maxLen ∨
    ∃ w, cnTokOK w ∧ (cur = toChars "- " ++ w ∨ cur = toChars "- " ++ w ++ [' ']
      ∨ cur = toChars "  " ++ w ∨ cur = toChars "  " ++ w ++ [' '])

/-! ## Theorems -/

/-! ### Basic lemmas about the string operations -/

theorem dropWhile_dropWhile (p : Char → Bool) (l : List Char) :
    (l.dropWhile p).dropWhile p = l.dropWhile p := by
  induction l with
  | nil => rfl
  | cons a l ih =>
      by_cases h : p a
      · simp [List.dropWhile_cons, h, ih]
      · simp [List.dropWhile_cons, h]

theorem not_head_of_dropWhile_eq_self (p : Char → Bool) (a : Char) (rest : List Char)
    (h : List.dropWhile p (a :: rest) = a :: rest) : p a = false := by
  by_cases hp : p a
  · exfalso
    rw [List.dropWhile_cons, if_pos hp] at h
    have := List.Sublist.length_le (List.dropWhile_sublist (l := rest) p)
    rw [h] at this
    simp at this
  · simpa using hp

theorem ltrim_ltrim (l : List Char) : ltrim (ltrim l) = ltrim l :=
  dropWhile_dropWhile isPySpace l

theorem rstrip_rstrip (l : List Char) : rstrip (rstrip l) = rstrip l := by
  unfold rstrip
  rw [List.reverse_reverse, dropWhile_dropWhile]

/-- Right-stripping yields a prefix of its input. -/
theorem rstrip_leading (l : List Char) : rstrip l <+: l := by
  have h := List.dropWhile_suffix (l := l.reverse) isPySpace
  have h2 : (List.dropWhile isPySpace l.reverse).reverse <+: l.reverse.reverse :=
    List.reverse_prefix.mpr h
  simpa [rstrip] using h2

theorem ltrim_rstrip_of_ltrimmed (l : List Char) (h : ltrim l = l) :
    ltrim (rstrip l) = rstrip l := by
  cases hr : rstrip l with
  | nil => rfl
  | cons a m =>
      have hpre : a :: m <+: l := hr ▸ rstrip_leading l
      obtain ⟨t, ht⟩ := hpre
      have hpa : isPySpace a = false := by
        apply not_head_of_dropWhile_eq_self isPySpace a (m ++ t)
        have : l = a :: (m ++ t) := by rw [← ht]; simp
        rw [this] at h
        exact h
      simp [ltrim, List.dropWhile_cons, hpa]

theorem pyStrip_idem (l : List Char) : pyStrip (pyStrip l) = pyStrip l := by
  unfold pyStrip
  rw [ltrim_rstrip_of_ltrimmed (ltrim l) (ltrim_ltrim l), rstrip_rstrip]

theorem length_filterMap_eq_filter {α β : Type} (f : α → Option β) (p : α → Bool)
    (h : ∀ a, (f a).isSome = p a) (l : List α) :
    (l.filterMap f).length = (l.filter p).length := by
  induction l with
  | nil => rfl
  | cons a l ih =>
      rw [List.filterMap_cons, List.filter_cons]
      cases hf : f a with
      | none =>
          have := h a; rw [hf] at this; simp at this
          rw [if_neg (by simp [this])]; exact ih
      | some b =>
          have := h a; rw [hf] at this; simp at this
          rw [if_pos (by simp [this])]; simpa using ih

/-- The per-line parse `lineToPoint` yields a record exactly for lines that are non-empty after
stripping. -/
theorem lineToPoint_isSome (line : List Char) :
    (lineToPoint line).isSome = !(pyStrip line).isEmpty := by
  unfold lineToPoint
  by_cases h : pyStrip line = []
  · simp [h]
  · rw [if_neg h]
    cases splitOnChar ',' (pyStrip line) with
    | nil => simp [List.isEmpty_iff, h]
    | cons p0 ps =>
        cases ps with
        | nil => simp [List.isEmpty_iff, h]
        | cons p1 ps' => simp [List.isEmpty_iff, h]

/-- Splitting a list that does not contain the separator returns the list as
its single part. -/
theorem splitOnChar_of_not_mem (sep : Char) (l : List Char) (h : sep ∉ l) :
    splitOnChar sep l = [l] := by
  induction l with
  | nil => rfl
  | cons c rest ih =>
      have hc : ¬ c = sep := fun hcs => h (hcs ▸ List.mem_cons_self c rest)
      have hrest : sep ∉ rest := fun hm => h (List.mem_cons_of_mem c hm)
      unfold splitOnChar
      rw [ih hrest]
      simp [hc]

/-- C2 (supporting form): `extract_points` produces exactly one record per
line that is non-empty after stripping, and any line without a comma becomes
a record whose description is the entire stripped line with status `"no"`. -/
theorem extract_points_records_per_line (text : List Char) :
    (extract_points text).length
      = ((splitOnChar '\n' text).filter (fun l => !(pyStrip l).isEmpty)).length
    ∧ ∀ line : List Char, pyStrip line ≠ [] → ',' ∉ pyStrip line →
        lineToPoint line = some (pyStrip line, toChars "no") := by
  constructor
  · exact length_filterMap_eq_filter lineToPoint _ lineToPoint_isSome _
  · intro line hne hnc
    unfold lineToPoint
    rw [if_neg hne, splitOnChar_of_not_mem ',' (pyStrip line) hnc]

/-- Witness for `extract_points_records_per_line` at a concrete comma-free
line. -/
theorem extract_points_records_per_line_witness :
    pyStrip (toChars "plain line") ≠ [] ∧ ',' ∉ pyStrip (toChars "plain line") ∧
      lineToPoint (toChars "plain line")
        = some (pyStrip (toChars "plain line"), toChars "no") :=
  ⟨by decide, by decide,
    (extract_points_records_per_line (toChars "plain line")).2
      (toChars "plain line") (by decide) (by decide)⟩

/-- C6 counterexample: the malformed line `", yes"` yields a record whose
description is empty after trimming, refuting the invariant as stated. -/
theorem extract_points_nonempty_description_counterexample :
    ¬ (∀ text : List Char, ∀ r ∈ extract_points text, pyStrip r.1 ≠ []) := by
  intro h
  exact h (toChars ", yes") ([], toChars "yes") (by decide) rfl

/-- C6 (amended): every line that is non-empty after stripping still yields a
record, and the record's description is non-empty after trimming whenever the
text before the line's first comma is non-empty after trimming (for a
comma-free line that segment is the whole line). -/
theorem extract_points_description_amended (line : List Char) :
    (pyStrip line ≠ [] → (lineToPoint line).isSome = true)
    ∧ ∀ d st, lineToPoint line = some (d, st) →
        pyStrip ((splitOnChar ',' (pyStrip line)).headD []) ≠ [] →
        pyStrip d ≠ [] := by
  constructor
  · intro hne
    rw [lineToPoint_isSome]
    simpa [List.isEmpty_iff] using hne
  · intro d st hsome hseg
    unfold lineToPoint at hsome
    by_cases h : pyStrip line = []
    · rw [if_pos h] at hsome; exact absurd hsome (by simp)
    · rw [if_neg h] at hsome
      cases hsp : splitOnChar ',' (pyStrip line) with
      | nil => rw [hsp] at hsome; simp at hsome
               obtain ⟨h1, _⟩ := hsome
               subst h1
               rwa [pyStrip_idem]
      | cons p0 ps =>
          cases ps with
          | nil =>
              rw [hsp] at hsome hseg; simp at hsome hseg
              obtain ⟨h1, _⟩ := hsome
              subst h1
              rwa [pyStrip_idem]
          | cons p1 ps' =>
              rw [hsp] at hsome hseg; simp at hsome hseg
              obtain ⟨h1, _⟩ := hsome
              subst h1
              rwa [pyStrip_idem]

/-- Witness for `extract_points_description_amended` at the concrete line
`"Wet floor, yes"`. -/
theorem extract_points_description_amended_witness :
    lineToPoint (toChars "Wet floor, yes") = some (toChars "Wet floor", toChars "yes") ∧
      pyStrip (toChars "Wet floor") ≠ [] :=
  ⟨by decide,
    (extract_points_description_amended (toChars "Wet floor, yes")).2
      (toChars "Wet floor") (toChars "yes") (by decide) (by decide)⟩

theorem desc_yes_exclusive (st : List Char) :
    ¬ (isDescTok st = true ∧ isYesTok st = true) := by
  rintro ⟨h1, h2⟩
  unfold isDescTok noValuesAnn at h1
  unfold isYesTok yesValuesAnn at h2
  simp at h1 h2
  rcases h1 with h | h <;> rw [h] at h2 <;> revert h2 <;> decide

theorem desc_not_yes (st : List Char) (h : isDescTok st = true) : isYesTok st = false := by
  by_contra hy
  exact desc_yes_exclusive st ⟨h, by simpa using hy⟩

theorem yes_not_desc (st : List Char) (h : isYesTok st = true) : isDescTok st = false := by
  by_contra hd
  exact desc_yes_exclusive st ⟨by simpa using hd, h⟩

theorem recHeight_nonneg (r : RecordIn) : 0 ≤ recHeight r := by
  unfold recHeight
  split <;> positivity

theorem step_left_desc_col0 (imgW : Int) (s : LayoutState) (r : RecordIn)
    (hd : isDescTok r.status = true) (hc : s.col = 0) :
    annotateStep alignLeft imgW s r =
      ({ x := s.x.map (fun xv => xv + (r.w : Int) + 100), y := s.y, col := 1,
         rowMax := max s.rowMax 84 },
       ⟨s.x.getD 60 - 35, s.y - 35, s.x.getD 60 + (r.w : Int) + 35, s.y + 104⟩) := by
  have hy : isYesTok r.status = false := desc_not_yes _ hd
  have hLR : ¬ (alignLeft = alignRight) := by decide
  unfold annotateStep recHeight
  simp [hy, hd, hc, hLR]
  omega

theorem step_left_desc_col1 (imgW : Int) (s : LayoutState) (r : RecordIn)
    (hd : isDescTok r.status = true) (hc : s.col = 1) :
    annotateStep alignLeft imgW s r =
      ({ x := some 60, y := s.y + max s.rowMax 84 + 80, col := 0, rowMax := 0 },
       ⟨s.x.getD 60 - 35, s.y - 35, s.x.getD 60 + (r.w : Int) + 35, s.y + 104⟩) := by
  have hy : isYesTok r.status = false := desc_not_yes _ hd
  have hLR : ¬ (alignLeft = alignRight) := by decide
  unfold annotateStep recHeight
  simp [hy, hd, hc, hLR]
  omega

theorem step_left_nondesc_noflush (imgW : Int) (s : LayoutState) (r : RecordIn)
    (hd : isDescTok r.status = false) (hnf : isYesTok r.status = false ∨ s.col = 0) :
    annotateStep alignLeft imgW s r =
      ({ x := some 60, y := s.y + recHeight r + 95, col := s.col, rowMax := s.rowMax },
       ⟨s.x.getD 60 - 35, s.y - 35, s.x.getD 60 + (r.w : Int) + 35,
        s.y + recHeight r + 20⟩) := by
  have hLR : ¬ (alignLeft = alignRight) := by decide
  have hflush : ¬ (isYesTok r.status = true ∧ 0 < s.col) := by
    rcases hnf with h | h
    · rintro ⟨h1, _⟩; rw [h] at h1; exact Bool.false_ne_true h1
    · rintro ⟨_, h2⟩; omega
  unfold annotateStep
  simp [hd, hflush, hLR]
  omega

theorem step_left_yes_flush (imgW : Int) (s : LayoutState) (r : RecordIn)
    (hy : isYesTok r.status = true) (hc : 0 < s.col) :
    annotateStep alignLeft imgW s r =
      ({ x := some 60, y := s.y + s.rowMax + 80 + recHeight r + 95, col := 0, rowMax := 0 },
       ⟨(60 : Int) - 35, s.y + s.rowMax + 80 - 35, 60 + (r.w : Int) + 35,
        s.y + s.rowMax + 80 + recHeight r + 20⟩) := by
  have hd : isDescTok r.status = false := yes_not_desc _ hy
  have hLR : ¬ (alignLeft = alignRight) := by decide
  unfold annotateStep
  simp [hd, hy, hc, hLR]
  omega

theorem annotateStep_left_preserves (imgW : Int) (s : LayoutState) (r : RecordIn)
    (placed : List Rect) (hinv : leftInv s placed) :
    (∀ rc ∈ placed, rDisjoint rc (annotateStep alignLeft imgW s r).2)
    ∧ leftInv (annotateStep alignLeft imgW s r).1
        ((annotateStep alignLeft imgW s r).2 :: placed) := by
  obtain ⟨⟨xv, hx⟩, hcol, hc0, hc1, hplaced⟩ := hinv
  have hh := recHeight_nonneg r
  by_cases hd : isDescTok r.status = true
  · by_cases hc : s.col = 0
    · -- first box of a 2-up row
      obtain ⟨hx60, hrm⟩ := hc0 hc
      rw [step_left_desc_col0 imgW s r hd hc, hx60]
      constructor
      · intro rc hrc
        have h2 := hplaced rc hrc
        unfold rDisjoint rOverlap
        dsimp only
        simp only [Option.getD_some]
        rcases h2 with h2 | ⟨h21, h22, h23⟩
        · rintro ⟨ho1, ho2, ho3, ho4⟩; omega
        · omega
      · unfold leftInv
        dsimp only [Option.map_some']
        simp only [Option.getD_some]
        refine ⟨⟨60 + (r.w : Int) + 100, rfl⟩, by omega,
          fun h => absurd h (by omega), fun _ => by omega, ?_⟩
        intro rc hrc
        rcases List.mem_cons.mp hrc with rfl | hrc
        · right
          refine ⟨by trivial, by dsimp only; omega, by dsimp only; omega⟩
        · have h2 := hplaced rc hrc
          rcases h2 with h2 | ⟨h21, h22, h23⟩
          · left; omega
          · omega
    · -- second box of a 2-up row: the row flushes
      have hc1' : s.col = 1 := by omega
      have hrm : s.rowMax = 84 := hc1 hc1'
      rw [step_left_desc_col1 imgW s r hd hc1', hx]
      constructor
      · intro rc hrc
        have h2 := hplaced rc hrc
        rw [hx] at h2
        simp only [Option.getD_some] at h2
        unfold rDisjoint rOverlap
        dsimp only
        simp only [Option.getD_some]
        rintro ⟨ho1, ho2, ho3, ho4⟩
        rcases h2 with h2 | ⟨hcc, h22, h23⟩
        · omega
        · omega
      · unfold leftInv
        dsimp only
        refine ⟨⟨60, rfl⟩, by omega, fun _ => ⟨rfl, rfl⟩, fun h => by omega, ?_⟩
        intro rc hrc
        rcases List.mem_cons.mp hrc with rfl | hrc
        · left; dsimp only; omega
        · have h2 := hplaced rc hrc
          rw [hx] at h2
          simp only [Option.getD_some] at h2
          left
          rcases h2 with h2 | ⟨hcc, h22, h23⟩
          · omega
          · omega
  · have hd' : isDescTok r.status = false := by simpa using hd
    by_cases hflush : isYesTok r.status = true ∧ 0 < s.col
    · -- actionable record flushing a half-filled row
      obtain ⟨hy, hc⟩ := hflush
      have hc1' : s.col = 1 := by omega
      have hrm : s.rowMax = 84 := hc1 hc1'
      rw [step_left_yes_flush imgW s r hy hc]
      constructor
      · intro rc hrc
        have h2 := hplaced rc hrc
        rw [hx] at h2
        simp only [Option.getD_some] at h2
        unfold rDisjoint rOverlap
        dsimp only
        rintro ⟨ho1, ho2, ho3, ho4⟩
        rcases h2 with h2 | ⟨hcc, h22, h23⟩
        · omega
        · omega
      · unfold leftInv
        dsimp only
        refine ⟨⟨60, rfl⟩, by omega, fun _ => ⟨rfl, rfl⟩, fun h => by omega, ?_⟩
        intro rc hrc
        rcases List.mem_cons.mp hrc with rfl | hrc
        · left; dsimp only; omega
        · have h2 := hplaced rc hrc
          rw [hx] at h2
          simp only [Option.getD_some] at h2
          left
          rcases h2 with h2 | ⟨hcc, h22, h23⟩
          · omega
          · omega
    · -- non-description record with no flush (actionable at column 0, or an
      -- unrecognized token)
      have hnf : isYesTok r.status = false ∨ s.col = 0 := by
        by_cases hy : isYesTok r.status = true
        · right; by_contra hcn; exact hflush ⟨hy, by omega⟩
        · left; simpa using hy
      rw [step_left_nondesc_noflush imgW s r hd' hnf, hx]
      constructor
      · intro rc hrc
        have h2 := hplaced rc hrc
        rw [hx] at h2
        simp only [Option.getD_some] at h2
        unfold rDisjoint rOverlap
        dsimp only
        simp only [Option.getD_some]
        rintro ⟨ho1, ho2, ho3, ho4⟩
        rcases h2 with h2 | ⟨hcc, h22, h23⟩
        · omega
        · omega
      · unfold leftInv
        dsimp only
        refine ⟨⟨60, rfl⟩, hcol, ?_, ?_, ?_⟩
        · intro h; exact ⟨rfl, (hc0 h).2⟩
        · intro h; exact hc1 h
        · intro rc hrc
          rcases List.mem_cons.mp hrc with rfl | hrc
          · left; dsimp only; omega
          · have h2 := hplaced rc hrc
            rw [hx] at h2
            simp only [Option.getD_some] at h2
            left
            rcases h2 with h2 | ⟨hcc, h22, h23⟩
            · omega
            · rcases hnf with hyf | hcz
              · have h84 : recHeight r = 84 := by
                  unfold recHeight; rw [hyf]; norm_num
                omega
              · omega

theorem runAnnotateAux_left_disjoint (imgW : Int) (records : List RecordIn) :
    ∀ (s : LayoutState) (placed : List Rect), leftInv s placed →
      (∀ rc ∈ placed, ∀ q ∈ runAnnotateAux alignLeft imgW s records, rDisjoint rc q)
      ∧ (runAnnotateAux alignLeft imgW s records).Pairwise rDisjoint := by
  induction records with
  | nil =>
      intro s placed _
      exact ⟨fun rc _ q hq => absurd hq (by simp [runAnnotateAux]),
        by simp [runAnnotateAux]⟩
  | cons r rs ih =>
      intro s placed hinv
      obtain ⟨hdis, hinv2⟩ := annotateStep_left_preserves imgW s r placed hinv
      obtain ⟨hfut, hpw⟩ := ih (annotateStep alignLeft imgW s r).1
        ((annotateStep alignLeft imgW s r).2 :: placed) hinv2
      constructor
      · intro rc hrc q hq
        simp only [runAnnotateAux] at hq
        rcases List.mem_cons.mp hq with rfl | hq
        · exact hdis rc hrc
        · exact hfut rc (List.mem_cons_of_mem _ hrc) q hq
      · simp only [runAnnotateAux]
        exact List.Pairwise.cons (fun q hq => hfut _ (List.mem_cons_self _ _) q hq) hpw

theorem initLayoutState_left : initLayoutState alignLeft = ⟨some 60, 60, 0, 0⟩ := by
  decide

/-- C1: in a left-aligned annotation pass the panel background rectangles of
the successive blocks are pairwise disjoint, for every record sequence: the
cursor updates alone guarantee it. -/
theorem annotate_left_panels_disjoint (imgW : Int) (records : List RecordIn) :
    (annotateRects alignLeft imgW records).Pairwise rDisjoint := by
  have hinit : leftInv (initLayoutState alignLeft) [] := by
    rw [initLayoutState_left]
    exact ⟨⟨60, rfl⟩, by dsimp only; omega, fun _ => ⟨rfl, rfl⟩,
      fun h => absurd h (by dsimp only; omega),
      fun rc hrc => absurd hrc (List.not_mem_nil rc)⟩
  exact (runAnnotateAux_left_disjoint imgW records _ [] hinit).2

/-- C3: two consecutive non-actionable records placed from an empty row share
that row (the y cursor is unchanged between them and the x cursor advances by
the first box's measured width plus the 100 px inter-column gap), and an
actionable record is always placed at the 60 px margin, flushing a half-filled
2-up row first. -/
theorem layout_two_up_and_fresh_row (imgW : Int) (s : LayoutState) (r1 r2 ra : RecordIn)
    (hx : s.x = some 60) (hc : s.col = 0)
    (h1 : isDescTok r1.status = true) (h2 : isDescTok r2.status = true)
    (hya : isYesTok ra.status = true) :
    ((annotateStep alignLeft imgW s r1).1.y = s.y
      ∧ (annotateStep alignLeft imgW s r1).1.x = some (60 + (r1.w : Int) + 100)
      ∧ (annotateStep alignLeft imgW (annotateStep alignLeft imgW s r1).1 r2).2.y0
          = (annotateStep alignLeft imgW s r1).2.y0)
    ∧ (∀ s' : LayoutState, (s'.col = 0 → s'.x = some 60) →
        (annotateStep alignLeft imgW s' ra).2.x0 = 60 - 35
        ∧ (0 < s'.col →
            (annotateStep alignLeft imgW s' ra).2.y0 = s'.y + s'.rowMax + 80 - 35)) := by
  constructor
  · rw [step_left_desc_col0 imgW s r1 h1 hc, hx]
    dsimp only [Option.map_some']
    refine ⟨rfl, rfl, ?_⟩
    rw [step_left_desc_col1 imgW _ r2 h2 rfl]
  · intro s' hcnd
    by_cases hc' : 0 < s'.col
    · rw [step_left_yes_flush imgW s' ra hya hc']
      exact ⟨rfl, fun _ => rfl⟩
    · have hc0' : s'.col = 0 := by omega
      rw [step_left_nondesc_noflush imgW s' ra (yes_not_desc _ hya) (Or.inr hc0'),
        hcnd hc0']
      exact ⟨rfl, fun h => absurd h hc'⟩

/-- Witness for `layout_two_up_and_fresh_row` at concrete records. -/
theorem layout_two_up_and_fresh_row_witness :
    (annotateStep alignLeft 1920 ⟨some 60, 60, 0, 0⟩ ⟨toChars "no", 100, 0⟩).1.y = 60 ∧
      (annotateStep alignLeft 1920 ⟨some 60, 60, 0, 0⟩ ⟨toChars "no", 100, 0⟩).1.x
        = some 260 := by
  have h := layout_two_up_and_fresh_row 1920 ⟨some 60, 60, 0, 0⟩
    ⟨toChars "no", 100, 0⟩ ⟨toChars "no", 120, 0⟩ ⟨toChars "yes", 200, 5⟩
    rfl rfl (by decide) (by decide) (by decide)
  exact ⟨h.1.1, by rw [h.1.2.1]; norm_num⟩

theorem annotateStep_y_mono (align : List Char) (imgW : Int) (s : LayoutState) (r : RecordIn)
    (hrm : 0 ≤ s.rowMax) :
    s.y ≤ (annotateStep align imgW s r).1.y
    ∧ (annotateStep align imgW s r).2.y0 ≤ (annotateStep align imgW s r).1.y - 35
    ∧ s.y - 35 ≤ (annotateStep align imgW s r).2.y0
    ∧ 0 ≤ (annotateStep align imgW s r).1.rowMax := by
  have hh := recHeight_nonneg r
  unfold annotateStep
  dsimp only
  split_ifs <;> dsimp only <;> refine ⟨by omega, by omega, by omega, by omega⟩

theorem annotateYTrace_head (align : List Char) (imgW : Int) (s : LayoutState)
    (records : List RecordIn) :
    (annotateYTrace align imgW s records).head? = some s.y := by
  cases records <;> rfl

theorem run_y_mono (align : List Char) (imgW : Int) (records : List RecordIn) :
    ∀ s : LayoutState, 0 ≤ s.rowMax →
      List.Chain' (fun a b : Int => a ≤ b) (annotateYTrace align imgW s records)
      ∧ List.Chain' (fun p q : Rect => p.y0 ≤ q.y0) (runAnnotateAux align imgW s records)
      ∧ ∀ q ∈ runAnnotateAux align imgW s records, s.y - 35 ≤ q.y0 := by
  induction records with
  | nil =>
      intro s _
      exact ⟨by simp [annotateYTrace], by simp [runAnnotateAux],
        fun q hq => absurd hq (by simp [runAnnotateAux])⟩
  | cons r rs ih =>
      intro s hrm
      obtain ⟨ha, hb, hc, hd⟩ := annotateStep_y_mono align imgW s r hrm
      obtain ⟨iha, ihb, ihc⟩ := ih (annotateStep align imgW s r).1 hd
      refine ⟨?_, ?_, ?_⟩
      · simp only [annotateYTrace]
        rw [List.chain'_cons']
        refine ⟨?_, iha⟩
        intro b hb'
        rw [annotateYTrace_head] at hb'
        have : b = (annotateStep align imgW s r).1.y := by
          injection hb'.symm
        omega
      · simp only [runAnnotateAux]
        rw [List.chain'_cons']
        refine ⟨?_, ihb⟩
        intro q hq
        cases hrun : runAnnotateAux align imgW (annotateStep align imgW s r).1 rs with
        | nil => rw [hrun] at hq; simp at hq
        | cons a l =>
            rw [hrun] at hq
            simp at hq
            subst hq
            have := ihc a (by rw [hrun]; exact List.mem_cons_self a l)
            omega
      · intro q hq
        simp only [runAnnotateAux] at hq
        rcases List.mem_cons.mp hq with rfl | hq
        · omega
        · have := ihc q hq
          omega

/-- C10: along one annotation pass the y cursor never decreases, and the
panels are placed top-to-bottom (their top edges are monotone), so no block
is ever placed in a row above a previously started row. -/
theorem annotate_y_cursor_monotone (align : List Char) (imgW : Int)
    (records : List RecordIn) :
    List.Chain' (fun a b : Int => a ≤ b)
        (annotateYTrace align imgW (initLayoutState align) records)
    ∧ List.Chain' (fun p q : Rect => p.y0 ≤ q.y0) (annotateRects align imgW records) := by
  have h := run_y_mono align imgW records (initLayoutState align) (by
    unfold initLayoutState; dsimp only; omega)
  exact ⟨h.1, h.2.1⟩

/-- C8: a detector returning the same label twice appends exactly one
additional non-actionable record, the returned unique-label set is exactly
that one label, and in general a detection whose label is already in the
unique-label set is skipped. -/
theorem enrich_idempotent_on_repeated_labels (language l : List Char)
    (points : List (List Char × List Char)) (d : DetectionIn)
    (hl : d.label = some l) (hb : d.hasBbox = true) :
    (enrichPoints language [d, d] points).1 = points ++ [detectionPoint language l]
    ∧ (enrichPoints language [d, d] points).2 = [l]
    ∧ isDescTok (detectionPoint language l).2 = true
    ∧ ∀ (ds : List DetectionIn) (labels : List (List Char)), l ∈ labels →
        enrichAux language (d :: ds) labels = enrichAux language ds labels := by
  obtain ⟨lab, bb⟩ := d
  have hl' : lab = some l := hl
  have hb' : bb = true := hb
  subst hl'
  subst hb'
  have hrun : enrichAux language [⟨some l, true⟩, ⟨some l, true⟩] []
      = ([detectionPoint language l], [l]) := by
    simp [enrichAux]
  refine ⟨?_, ?_, ?_, ?_⟩
  · unfold enrichPoints
    rw [hrun]
  · unfold enrichPoints
    rw [hrun]
  · unfold detectionPoint
    split_ifs
    · show isDescTok (toChars "否") = true
      decide
    · show isDescTok (toChars "no") = true
      decide
  · intro ds labels hmem
    simp [enrichAux, hmem]

/-- Witness for `enrich_idempotent_on_repeated_labels` on the spec's concrete
scenario (label `"unattended bag"` returned twice). -/
theorem enrich_idempotent_on_repeated_labels_witness :
    (enrichPoints (toChars "english")
        [⟨some (toChars "unattended bag"), true⟩,
         ⟨some (toChars "unattended bag"), true⟩] []).2
      = [toChars "unattended bag"] :=
  (enrich_idempotent_on_repeated_labels (toChars "english") (toChars "unattended bag")
      [] ⟨some (toChars "unattended bag"), true⟩ rfl rfl).2.1

/-- C9: evaluation at the failing input. After a first call whose detections
carried the label `"alarm light"`, a second call with zero detections leaves
the engine's unique-label set equal to `["alarm light"]` instead of the empty
set the spec's statelessness requires. -/
theorem unique_labels_persist_across_calls :
    updateUniqueLabelsOnCall
        (updateUniqueLabelsOnCall [] (toChars "english")
          [⟨some (toChars "alarm light"), true⟩])
        (toChars "english") []
      = [toChars "alarm light"]
    ∧ updateUniqueLabelsOnCall
        (updateUniqueLabelsOnCall [] (toChars "english")
          [⟨some (toChars "alarm light"), true⟩])
        (toChars "english") [] ≠ [] := by
  constructor
  · decide
  · decide

/-! ## PriorityScheduler and the classification of unrecognized status
tokens (C5). -/

theorem runAnnotateAux_length (align : List Char) (imgW : Int) :
    ∀ (records : List RecordIn) (s : LayoutState),
      (runAnnotateAux align imgW s records).length = records.length := by
  intro records
  induction records with
  | nil => intro s; rfl
  | cons r rs ih =>
      intro s
      simp only [runAnnotateAux, List.length_cons]
      rw [ih]

/-- C5 counterexample: the unrecognized status token `"maybe"` receives sort
key `1` — the actionable key — so the stable sort orders it after a
non-actionable record, and the layout stage does not classify it as
description-only either. -/
theorem unrecognized_status_counterexample :
    sortPoints (toChars "english")
        [(toChars "door ajar", toChars "maybe"), (toChars "cable", toChars "no")]
      = [(toChars "cable", toChars "no"), (toChars "door ajar", toChars "maybe")]
    ∧ sortKeyPoint (toChars "english") (toChars "door ajar", toChars "maybe") = 1
    ∧ sortKeyPoint (toChars "english") (toChars "wet floor", toChars "yes") = 1
    ∧ isDescTok (toChars "maybe") = false := by
  refine ⟨by decide, by decide, by decide, by decide⟩

/-- C5 (amended): a record with an unrecognized status token is never dropped
(the layout pass renders exactly one block per record) and never triggers the
actionable branch, but it is not treated as non-actionable: the scheduler
gives it the actionable sort key `1` and the layout stage classifies it as
not description-only. -/
theorem unrecognized_status_amended (st : List Char)
    (hno : normalizeStatus st ∉ noValuesAnn) (hyes : normalizeStatus st ∉ yesValuesAnn) :
    (∀ language d : List Char, sortKeyPoint language (d, st) = 1)
    ∧ isDescTok st = false
    ∧ isYesTok st = false
    ∧ ∀ (align : List Char) (imgW : Int) (records : List RecordIn),
        (annotateRects align imgW records).length = records.length := by
  refine ⟨?_, ?_, ?_, ?_⟩
  · intro language d
    unfold sortKeyPoint
    rw [if_neg]
    intro hmem
    apply hno
    unfold noValuesSort at hmem
    by_cases hl : language = toChars "chinese"
    · rw [if_pos hl] at hmem
      exact hmem
    · rw [if_neg hl] at hmem
      rcases List.mem_singleton.mp hmem with h
      rw [h]
      exact List.mem_cons_self _ _
  · unfold isDescTok
    simpa using hno
  · unfold isYesTok
    simpa using hyes
  · intro align imgW records
    exact runAnnotateAux_length align imgW records _

/-- Witness for `unrecognized_status_amended` at the token `"maybe"`. -/
theorem unrecognized_status_amended_witness :
    normalizeStatus (toChars "maybe") ∉ noValuesAnn ∧
      sortKeyPoint (toChars "english") (toChars "door ajar", toChars "maybe") = 1 :=
  ⟨by decide,
    (unrecognized_status_amended (toChars "maybe") (by decide) (by decide)).1
      (toChars "english") (toChars "door ajar")⟩

/-- C4 counterexample: in the English pipeline (`qwen_description.py`) a
placeholder suggestion `"-...，-...，-..."` is wrapped verbatim — no output
line contains either fallback phrase, and the ellipsis placeholder content is
rendered as a bullet line. -/
theorem placeholder_fallback_counterexample :
    (∀ ℓ ∈ wrap_text_lines (toChars "wet floor") (toChars "-...，-...，-...") 40
        (toChars "english"),
      hasSubstr ℓ (toChars "請及時處理") = false
      ∧ hasSubstr ℓ (toChars "please address promptly") = false)
    ∧ (toChars "- ...，-...，-...") ∈ wrap_text_lines (toChars "wet floor")
        (toChars "-...，-...，-...") 40 (toChars "english") := by
  refine ⟨by decide, by decide⟩

/-- C7 counterexample: with `max_chars = 40`, a 39-character first word makes
the wrapper emit the bullet line `"- A…a"` of trimmed length 41 > 40, although
no whitespace-delimited word of the input exceeds the 40-character budget. -/
theorem wrap_budget_counterexample :
    (toChars "- " ++ ('A' :: List.replicate 38 'a'))
        ∈ wrap_text_lines ('A' :: List.replicate 38 'a' ++ toChars " x") [] 40
          (toChars "english")
    ∧ 40 < (pyStrip (toChars "- " ++ ('A' :: List.replicate 38 'a'))).length
    ∧ (∀ w ∈ splitWs ('A' :: List.replicate 38 'a' ++ toChars " x"), w.length ≤ 40)
    ∧ splitWs ([] : List Char) = [] := by
  refine ⟨by decide, by decide, by decide, by decide⟩

theorem rstrip_append_space (l : List Char) (c : Char) (hc : isPySpace c = true) :
    rstrip (l ++ [c]) = rstrip l := by
  unfold rstrip
  rw [List.reverse_append]
  simp [List.dropWhile_cons, hc]

theorem rstrip_append_wordOK (x w : List Char) (hw : w ≠ [])
    (hns : ∀ c ∈ w, isPySpace c = false) : rstrip (x ++ w) = x ++ w := by
  unfold rstrip
  cases hwr : w.reverse with
  | nil => exact absurd (by simpa using hwr) hw
  | cons d dr =>
      have hd : d ∈ w := by
        rw [← List.mem_reverse, hwr]; exact List.mem_cons_self _ _
      simp only [List.reverse_append, hwr, List.cons_append, List.dropWhile_cons,
        hns d hd, Bool.false_eq_true, if_false]
      rw [← List.cons_append, ← hwr, List.reverse_append, List.reverse_reverse,
        List.reverse_reverse]

theorem rstrip_cons (c : Char) (t : List Char) :
    rstrip (c :: t) = if rstrip t = [] then (if isPySpace c then [] else [c])
      else c :: rstrip t := by
  unfold rstrip
  rw [show (c :: t).reverse = t.reverse ++ [c] from by simp, List.dropWhile_append]
  by_cases h : t.reverse.dropWhile isPySpace = []
  · rw [h]
    simp only [List.isEmpty_nil, if_true, List.reverse_nil, List.reverse_eq_nil_iff]
    by_cases hc : isPySpace c
    · simp [List.dropWhile_cons, hc]
    · simp [List.dropWhile_cons, hc]
  · rw [if_neg (by simpa [List.isEmpty_iff] using h),
      if_neg (by simpa [List.reverse_eq_nil_iff] using h)]
    rw [List.reverse_append]
    simp

theorem rstrip_ltrim_comm (l : List Char) : rstrip (ltrim l) = ltrim (rstrip l) := by
  induction l with
  | nil => rfl
  | cons c t ih =>
      by_cases hc : isPySpace c
      · have hlt : ltrim (c :: t) = ltrim t := by
          simp [ltrim, List.dropWhile_cons, hc]
        rw [hlt, ih, rstrip_cons]
        by_cases hrt : rstrip t = []
        · rw [if_pos hrt, if_pos hc, hrt]
        · rw [if_neg hrt]
          simp [ltrim, List.dropWhile_cons, hc]
      · have hlt : ltrim (c :: t) = c :: t := by
          simp [ltrim, List.dropWhile_cons, hc]
        rw [hlt]
        rw [rstrip_cons]
        by_cases hrt : rstrip t = []
        · rw [if_pos hrt, if_neg (by simpa using hc)]
          simp [ltrim, List.dropWhile_cons, hc]
        · rw [if_neg hrt]
          simp [ltrim, List.dropWhile_cons, hc]

theorem pyStrip_rstrip (l : List Char) : pyStrip (rstrip l) = pyStrip l := by
  unfold pyStrip
  rw [show ltrim (rstrip l) = rstrip (ltrim l) from (rstrip_ltrim_comm l).symm,
    rstrip_rstrip]

theorem splitWsAux_wordOK (l : List Char) :
    ∀ acc, (∀ c ∈ acc, isPySpace c = false) →
      ∀ w ∈ splitWsAux l acc, isWordTok w := by
  induction l with
  | nil =>
      intro acc hacc w hw
      unfold splitWsAux at hw
      by_cases h : acc = []
      · rw [if_pos h] at hw; simp at hw
      · rw [if_neg h] at hw
        simp at hw
        subst hw
        exact ⟨by simpa using h, fun c hc => hacc c (List.mem_reverse.mp hc)⟩
  | cons c rest ih =>
      intro acc hacc w hw
      unfold splitWsAux at hw
      by_cases hc : isPySpace c
      · rw [if_pos hc] at hw
        by_cases h : acc = []
        · rw [if_pos h] at hw
          exact ih [] (by simp) w hw
        · rw [if_neg h] at hw
          rcases List.mem_cons.mp hw with rfl | hw
          · exact ⟨by simpa using h, fun d hd => hacc d (List.mem_reverse.mp hd)⟩
          · exact ih [] (by simp) w hw
      · rw [if_neg hc] at hw
        refine ih (c :: acc) ?_ w hw
        intro d hd
        rcases List.mem_cons.mp hd with rfl | hd
        · simpa using hc
        · exact hacc d hd

theorem splitWs_wordOK (l : List Char) : ∀ w ∈ splitWs l, isWordTok w :=
  splitWsAux_wordOK l [] (by simp)

theorem emit_ok (maxC : Nat) (cur : List Char) (hcur : bulletCurInv maxC cur)
    (hne : cur ≠ toChars "- ") : fitsOrSingleWord maxC (rstrip cur) := by
  rcases hcur with rfl | hfit | ⟨w, hw, hform⟩
  · exact absurd rfl hne
  · left; rw [pyStrip_rstrip]; exact hfit
  · right
    refine ⟨w, hw, ?_⟩
    rcases hform with rfl | rfl
    · left
      rw [rstrip_append_space _ ' ' (by decide), rstrip_append_wordOK _ w hw.1 hw.2]
    · right
      rw [rstrip_append_space _ ' ' (by decide), rstrip_append_wordOK _ w hw.1 hw.2]

theorem bulletWrapGo_budget (maxC : Nat) :
    ∀ (ws : List (List Char)) (cur : List Char),
      (∀ w ∈ ws, isWordTok w) → bulletCurInv maxC cur →
      ∀ l0 ∈ bulletWrapGo maxC ws cur, fitsOrSingleWord maxC l0 := by
  intro ws
  induction ws with
  | nil =>
      intro cur hws hcur l0 hl
      unfold bulletWrapGo at hl
      by_cases hstrip : pyStrip cur ≠ ['-']
      · rw [if_pos hstrip] at hl
        simp at hl
        subst hl
        refine emit_ok maxC cur hcur ?_
        intro hc
        exact hstrip (by rw [hc]; decide)
      · rw [if_neg hstrip] at hl
        simp at hl
  | cons w0 rest ih =>
      intro cur hws hcur l0 hl
      unfold bulletWrapGo at hl
      by_cases hcond : maxC < (pyStrip (cur ++ w0 ++ [' '])).length ∧ cur ≠ toChars "- "
      · rw [if_pos hcond] at hl
        rcases List.mem_cons.mp hl with rfl | hl
        · exact emit_ok maxC cur hcur hcond.2
        · refine ih _ (fun w hw => hws w (List.mem_cons_of_mem _ hw)) ?_ l0 hl
          right; right
          exact ⟨w0, hws w0 (List.mem_cons_self _ _), Or.inr rfl⟩
      · rw [if_neg hcond] at hl
        refine ih _ (fun w hw => hws w (List.mem_cons_of_mem _ hw)) ?_ l0 hl
        rcases not_and_or.mp hcond with hfit | hpre
        · right; left; omega
        · right; right
          refine ⟨w0, hws w0 (List.mem_cons_self _ _), Or.inl ?_⟩
          rw [not_not.mp hpre]

theorem mem_concatMapL {α β : Type} (f : α → List β) (l : List α) (b : β) :
    b ∈ concatMapL f l ↔ ∃ a ∈ l, b ∈ f a := by
  induction l with
  | nil => simp [concatMapL]
  | cons a t ih => simp [concatMapL, ih]

theorem wrap_text_lines_budget (description suggestion : List Char) (max_chars : Nat)
    (language : List Char) :
    ∀ l0 ∈ wrap_text_lines description suggestion max_chars language,
      l0 ≠ (if language = toChars "chinese" then toChars "描述:"
            else toChars "Description:") →
      l0 ≠ (if language = toChars "chinese" then toChars "建議:"
            else toChars "Suggestion:") →
      fitsOrSingleWord (if language = toChars "chinese" then 30 else max_chars) l0 := by
  intro l0 hl h1 h2
  unfold wrap_text_lines at hl
  simp only [List.mem_cons, List.mem_append] at hl
  rcases hl with (heq | hl) | (heq | hl)
  · exact absurd heq h1
  · -- description wrap
    by_cases hd : description ≠ []
    · rw [if_pos hd] at hl
      exact bulletWrapGo_budget _ _ _ (splitWs_wordOK _) (Or.inl rfl) l0 hl
    · rw [if_neg hd] at hl
      simp at hl
  · exact absurd heq h2
  · rw [mem_concatMapL] at hl
    obtain ⟨item, _, hl⟩ := hl
    by_cases hit : pyStrip item ≠ []
    · rw [if_pos hit] at hl
      by_cases hdash : startsWith (pyStrip item) ['-'] = true
      · rw [if_pos hdash] at hl
        exact bulletWrapGo_budget _ _ _ (splitWs_wordOK _) (Or.inl rfl) l0 hl
      · rw [if_neg hdash] at hl
        exact bulletWrapGo_budget _ _ _ (splitWs_wordOK _) (Or.inl rfl) l0 hl
    · rw [if_neg hit] at hl
      simp at hl

theorem rstrip_length_le (l : List Char) : (rstrip l).length ≤ l.length :=
  (rstrip_leading l).length_le

theorem chinese_not_char (c d : Char) (h : isChineseChar c = true)
    (hd : d.toNat < 0x4e00) : (c == d) = false := by
  unfold isChineseChar at h
  simp at h
  rw [beq_eq_false_iff_ne]
  intro hc
  rw [hc] at h
  omega

theorem chinese_not_space (c : Char) (h : isChineseChar c = true) :
    isPySpace c = false := by
  unfold isPySpace
  rw [chinese_not_char c ' ' h (by decide), chinese_not_char c '\t' h (by decide),
    chinese_not_char c '\n' h (by decide), chinese_not_char c '\r' h (by decide),
    chinese_not_char c '\x0b' h (by decide), chinese_not_char c '\x0c' h (by decide)]
  rfl

theorem chinese_not_delim (c : Char) (h : isChineseChar c = true) :
    isCnDelim c = false := by
  unfold isCnDelim
  rw [chinese_not_char c ' ' h (by decide), chinese_not_char c '\n' h (by decide),
    chinese_not_char c '\t' h (by decide), chinese_not_char c ',' h (by decide),
    chinese_not_char c '.' h (by decide), chinese_not_char c ':' h (by decide),
    chinese_not_char c ';' h (by decide), chinese_not_char c '!' h (by decide),
    chinese_not_char c '?' h (by decide)]
  rfl

theorem cn_emit_ok (maxLen : Nat) (cur : List Char) (h : cnCurInv maxLen cur) :
    cnLineOk maxLen cur ∧ cnLineOk maxLen (rstrip cur) := by
  rcases h with hfit | ⟨w, hw, hform⟩
  · exact ⟨Or.inl hfit, Or.inl (by rw [rstrip_rstrip]; exact hfit)⟩
  · constructor
    · right
      rcases hform with rfl | rfl | rfl | rfl
      · exact ⟨w, hw, _, Or.inl rfl, Or.inl rfl⟩
      · exact ⟨w, hw, _, Or.inl rfl, Or.inr (Or.inl rfl)⟩
      · exact ⟨w, hw, _, Or.inr rfl, Or.inl rfl⟩
      · exact ⟨w, hw, _, Or.inr rfl, Or.inr (Or.inl rfl)⟩
    · right
      rcases hform with rfl | rfl | rfl | rfl
      · exact ⟨w, hw, _, Or.inl rfl, Or.inr (Or.inr rfl)⟩
      · refine ⟨w, hw, toChars "- " ++ w, Or.inl rfl, Or.inr (Or.inr ?_)⟩
        rw [rstrip_append_space _ ' ' (by decide)]
      · exact ⟨w, hw, _, Or.inr rfl, Or.inr (Or.inr rfl)⟩
      · refine ⟨w, hw, toChars "  " ++ w, Or.inr rfl, Or.inr (Or.inr ?_)⟩
        rw [rstrip_append_space _ ' ' (by decide)]

/-- Invariant for the two candidates the word branch can produce (the new
accumulator with or without the trailing space). -/
theorem cnCurInv_of_parts (maxLen : Nat) (hml : 1 ≤ maxLen) (cur2 : List Char)
    (h : (rstrip cur2).length ≤ maxLen ∨ ∃ w, (∀ c ∈ w, isCnDelim c = false) ∧
      (cur2 = toChars "- " ++ w ∨ cur2 = toChars "  " ++ w)) :
    cnCurInv maxLen cur2 ∧ cnCurInv maxLen (cur2 ++ [' ']) := by
  rcases h with hfit | ⟨w, hwds, hform⟩
  · refine ⟨Or.inl hfit, Or.inl ?_⟩
    rw [rstrip_append_space _ ' ' (by decide)]
    exact hfit
  · by_cases hw : w = []
    · subst hw
      rcases hform with rfl | rfl
      · constructor
        · left
          rw [show toChars "- " ++ ([] : List Char) = toChars "- " from by simp]
          have : rstrip (toChars "- ") = ['-'] := by decide
          rw [this]
          simpa using hml
        · left
          rw [show (toChars "- " ++ ([] : List Char)) ++ [' ']
              = (toChars "- ") ++ [' '] from by simp,
            rstrip_append_space _ ' ' (by decide)]
          have : rstrip (toChars "- ") = ['-'] := by decide
          rw [this]
          simpa using hml
      · constructor
        · left
          rw [show toChars "  " ++ ([] : List Char) = toChars "  " from by simp]
          have : rstrip (toChars "  ") = [] := by decide
          rw [this]
          simp
        · left
          rw [show (toChars "  " ++ ([] : List Char)) ++ [' ']
              = (toChars "  ") ++ [' '] from by simp,
            rstrip_append_space _ ' ' (by decide)]
          have : rstrip (toChars "  ") = [] := by decide
          rw [this]
          simp
    · rcases hform with rfl | rfl
      · exact ⟨Or.inr ⟨w, ⟨hw, hwds⟩, Or.inl rfl⟩,
          Or.inr ⟨w, ⟨hw, hwds⟩, Or.inr (Or.inl rfl)⟩⟩
      · exact ⟨Or.inr ⟨w, ⟨hw, hwds⟩, Or.inr (Or.inr (Or.inl rfl))⟩,
          Or.inr ⟨w, ⟨hw, hwds⟩, Or.inr (Or.inr (Or.inr rfl))⟩⟩

theorem wrapChineseGo_budget (maxLen : Nat) (hml : 1 ≤ maxLen) :
    ∀ (fuel : Nat) (text cur : List Char) (ls : List (List Char)),
      cnCurInv maxLen cur →
      wrapChineseGo maxLen (toChars "- ") (toChars "  ") fuel text cur = some ls →
      ∀ l0 ∈ ls, cnLineOk maxLen l0 := by
  intro fuel
  induction fuel with
  | zero =>
      intro text cur ls _ hrun
      exact absurd hrun (by simp [wrapChineseGo])
  | succ fuel ih =>
      intro text cur ls hcur hrun
      cases text with
      | nil =>
          unfold wrapChineseGo at hrun
          simp only [Option.some.injEq] at hrun
          subst hrun
          intro l0 hl
          split at hl
          · simp at hl
            subst hl
            exact (cn_emit_ok maxLen cur hcur).2
          · simp at hl
      | cons c rest =>
          unfold wrapChineseGo at hrun
          by_cases hch : isChineseChar c = true
          · rw [if_pos hch] at hrun
            by_cases hfl : maxLen ≤ cur.length ∧ cur ≠ toChars "- "
            · rw [if_pos hfl] at hrun
              cases hrec : wrapChineseGo maxLen (toChars "- ") (toChars "  ") fuel
                  rest (toChars "  " ++ [c]) with
              | none => rw [hrec] at hrun; simp at hrun
              | some ls' =>
                  rw [hrec] at hrun
                  simp only [Option.map_some', Option.some.injEq] at hrun
                  subst hrun
                  intro l0 hl
                  rcases List.mem_cons.mp hl with heq | hl
                  · rw [heq]
                    exact (cn_emit_ok maxLen cur hcur).1
                  · refine ih rest (toChars "  " ++ [c]) ls' ?_ hrec l0 hl
                    right
                    refine ⟨[c], ⟨by simp, ?_⟩, Or.inr (Or.inr (Or.inl rfl))⟩
                    intro d hd
                    simp at hd
                    rw [hd]
                    exact chinese_not_delim c hch
            · rw [if_neg hfl] at hrun
              refine ih rest (cur ++ [c]) ls ?_ hrun
              rcases not_and_or.mp hfl with hlen | hpre
              · left
                rw [rstrip_append_wordOK cur [c] (by simp) ?_]
                · simp only [List.length_append, List.length_cons, List.length_nil]
                  omega
                · intro d hd
                  simp at hd
                  rw [hd]
                  exact chinese_not_space c hch
              · have hc0 : cur = toChars "- " := not_not.mp hpre
                right
                refine ⟨[c], ⟨by simp, ?_⟩, Or.inl (by rw [hc0])⟩
                intro d hd
                simp at hd
                rw [hd]
                exact chinese_not_delim c hch
          · rw [if_neg hch] at hrun
            dsimp only at hrun
            have htokOK : ∀ d ∈ (c :: rest).takeWhile (fun ch => !(isCnDelim ch)),
                isCnDelim d = false := by
              intro d hd
              have := List.mem_takeWhile_imp hd
              simpa using this
            have hinvFlush := cnCurInv_of_parts maxLen hml
              (toChars "  " ++ (c :: rest).takeWhile (fun ch => !(isCnDelim ch)))
              (Or.inr ⟨_, htokOK, Or.inr rfl⟩)
            have hflushCase : ∀ (T C : List Char), cnCurInv maxLen C →
                (wrapChineseGo maxLen (toChars "- ") (toChars "  ") fuel T C).map
                  (fun ls0 => rstrip cur :: ls0) = some ls →
                ∀ l0 ∈ ls, cnLineOk maxLen l0 := by
              intro T C hC hmap
              cases hrec : wrapChineseGo maxLen (toChars "- ") (toChars "  ") fuel T C with
              | none => rw [hrec] at hmap; simp at hmap
              | some ls' =>
                  rw [hrec] at hmap
                  simp only [Option.map_some', Option.some.injEq] at hmap
                  subst hmap
                  intro l0 hl
                  rcases List.mem_cons.mp hl with heq | hl
                  · rw [heq]
                    exact (cn_emit_ok maxLen cur hcur).2
                  · exact ih T C ls' hC hrec l0 hl
            by_cases hfl : maxLen
                < (cur ++ (c :: rest).takeWhile (fun ch => !(isCnDelim ch))).length
                ∧ cur ≠ toChars "- "
            · rw [if_pos hfl, if_pos hfl] at hrun
              cases hr2 : (c :: rest).dropWhile (fun ch => !(isCnDelim ch)) with
              | nil =>
                  rw [hr2] at hrun
                  dsimp only at hrun
                  exact hflushCase _ _ hinvFlush.1 hrun
              | cons sp rest3 =>
                  rw [hr2] at hrun
                  dsimp only at hrun
                  by_cases hsp : (sp == ' ' || sp == '\t') = true
                  · rw [if_pos hsp] at hrun
                    dsimp only at hrun
                    exact hflushCase _ _ hinvFlush.2 hrun
                  · rw [if_neg hsp] at hrun
                    dsimp only at hrun
                    exact hflushCase _ _ hinvFlush.1 hrun
            · rw [if_neg hfl, if_neg hfl] at hrun
              have hinvNoFlush := cnCurInv_of_parts maxLen hml
                (cur ++ (c :: rest).takeWhile (fun ch => !(isCnDelim ch))) ?_
              · cases hr2 : (c :: rest).dropWhile (fun ch => !(isCnDelim ch)) with
                | nil =>
                    rw [hr2] at hrun
                    dsimp only at hrun
                    exact ih _ _ ls hinvNoFlush.1 hrun
                | cons sp rest3 =>
                    rw [hr2] at hrun
                    dsimp only at hrun
                    by_cases hsp : (sp == ' ' || sp == '\t') = true
                    · rw [if_pos hsp] at hrun
                      dsimp only at hrun
                      exact ih _ _ ls hinvNoFlush.2 hrun
                    · rw [if_neg hsp] at hrun
                      dsimp only at hrun
                      exact ih _ _ ls hinvNoFlush.1 hrun
              · rcases not_and_or.mp hfl with hlen | hpre
                · left
                  have h1 := rstrip_length_le
                    (cur ++ (c :: rest).takeWhile (fun ch => !(isCnDelim ch)))
                  omega
                · right
                  exact ⟨_, htokOK, Or.inl (by rw [not_not.mp hpre])⟩

theorem startsWith_chars (hay needle : List Char) (h : startsWith hay needle = true) :
    ∀ c ∈ needle, c ∈ hay := by
  induction needle generalizing hay with
  | nil => intro c hc; simp at hc
  | cons b bs ih =>
      cases hay with
      | nil => simp [startsWith] at h
      | cons a t =>
          unfold startsWith at h
          simp only [Bool.and_eq_true, beq_iff_eq] at h
          intro c hc
          rcases List.mem_cons.mp hc with heq | hc
          · rw [heq, ← h.1]
            exact List.mem_cons_self _ _
          · exact List.mem_cons_of_mem _ (ih t h.2 c hc)

theorem hasSubstr_chars (hay needle : List Char) (h : hasSubstr hay needle = true) :
    ∀ c ∈ needle, c ∈ hay := by
  induction hay with
  | nil =>
      unfold hasSubstr at h
      cases needle with
      | nil => intro c hc; simp at hc
      | cons b bs => simp [startsWith] at h
  | cons a t ih =>
      unfold hasSubstr at h
      simp only [Bool.or_eq_true] at h
      rcases h with h | h
      · exact startsWith_chars _ _ h
      · intro c hc
        exact List.mem_cons_of_mem _ (ih h c hc)

theorem pyStrip_subset (l : List Char) : ∀ ch ∈ pyStrip l, ch ∈ l := by
  intro ch hch
  have h1 : ch ∈ ltrim l := (rstrip_leading (ltrim l)).subset hch
  exact (List.dropWhile_sublist isPySpace).subset h1

theorem wrapChineseGo_chars (maxLen : Nat) (P : Char → Prop) (hP1 : P '-')
    (hP2 : P ' ') :
    ∀ (fuel : Nat) (text cur : List Char) (ls : List (List Char)),
      (∀ ch ∈ text, P ch) → (∀ ch ∈ cur, P ch) →
      wrapChineseGo maxLen (toChars "- ") (toChars "  ") fuel text cur = some ls →
      ∀ l0 ∈ ls, ∀ ch ∈ l0, P ch := by
  intro fuel
  induction fuel with
  | zero =>
      intro text cur ls _ _ hrun
      exact absurd hrun (by simp [wrapChineseGo])
  | succ fuel ih =>
      intro text cur ls htext hcurP hrun
      have hpre : ∀ ch ∈ toChars "- ", P ch := by
        intro ch hch
        rcases List.mem_cons.mp hch with heq | hch
        · rw [heq]; exact hP1
        · simp at hch
          rw [hch]; exact hP2
      have hind : ∀ ch ∈ toChars "  ", P ch := by
        intro ch hch
        rcases List.mem_cons.mp hch with heq | hch
        · rw [heq]; exact hP2
        · simp at hch
          rw [hch]; exact hP2
      have happend : ∀ (x y : List Char), (∀ ch ∈ x, P ch) → (∀ ch ∈ y, P ch) →
          ∀ ch ∈ x ++ y, P ch := by
        intro x y hx hy ch hch
        rcases List.mem_append.mp hch with hch | hch
        · exact hx ch hch
        · exact hy ch hch
      have hrstrip : ∀ (x : List Char), (∀ ch ∈ x, P ch) → ∀ ch ∈ rstrip x, P ch :=
        fun x hx ch hch => hx ch ((rstrip_leading x).subset hch)
      cases text with
      | nil =>
          unfold wrapChineseGo at hrun
          simp only [Option.some.injEq] at hrun
          subst hrun
          intro l0 hl
          split at hl
          · simp at hl
            subst hl
            exact hrstrip cur hcurP
          · simp at hl
      | cons c rest =>
          have hc : P c := htext c (List.mem_cons_self _ _)
          have hrest : ∀ ch ∈ rest, P ch := fun ch hch =>
            htext ch (List.mem_cons_of_mem _ hch)
          have hword : ∀ ch ∈ (c :: rest).takeWhile (fun ch => !(isCnDelim ch)), P ch :=
            fun ch hch => htext ch ((List.takeWhile_sublist _).subset hch)
          have hdropP : ∀ ch ∈ (c :: rest).dropWhile (fun ch => !(isCnDelim ch)), P ch :=
            fun ch hch => htext ch ((List.dropWhile_sublist _).subset hch)
          unfold wrapChineseGo at hrun
          by_cases hch2 : isChineseChar c = true
          · rw [if_pos hch2] at hrun
            by_cases hfl : maxLen ≤ cur.length ∧ cur ≠ toChars "- "
            · rw [if_pos hfl] at hrun
              cases hrec : wrapChineseGo maxLen (toChars "- ") (toChars "  ") fuel
                  rest (toChars "  " ++ [c]) with
              | none => rw [hrec] at hrun; simp at hrun
              | some ls' =>
                  rw [hrec] at hrun
                  simp only [Option.map_some', Option.some.injEq] at hrun
                  subst hrun
                  intro l0 hl
                  rcases List.mem_cons.mp hl with heq | hl
                  · rw [heq]; exact hcurP
                  · refine ih rest (toChars "  " ++ [c]) ls' hrest ?_ hrec l0 hl
                    refine happend _ _ hind ?_
                    intro ch hch
                    simp at hch
                    rw [hch]; exact hc
            · rw [if_neg hfl] at hrun
              refine ih rest (cur ++ [c]) ls hrest ?_ hrun
              refine happend _ _ hcurP ?_
              intro ch hch
              simp at hch
              rw [hch]; exact hc
          · rw [if_neg hch2] at hrun
            dsimp only at hrun
            have hcur2 : ∀ ch ∈ (if maxLen
                  < (cur ++ (c :: rest).takeWhile (fun ch => !(isCnDelim ch))).length
                  ∧ cur ≠ toChars "- " then
                    toChars "  " ++ (c :: rest).takeWhile (fun ch => !(isCnDelim ch))
                  else cur ++ (c :: rest).takeWhile (fun ch => !(isCnDelim ch))), P ch := by
              split
              · exact happend _ _ hind hword
              · exact happend _ _ hcurP hword
            by_cases hfl : maxLen
                < (cur ++ (c :: rest).takeWhile (fun ch => !(isCnDelim ch))).length
                ∧ cur ≠ toChars "- "
            · rw [if_pos hfl, if_pos hfl] at hrun
              rw [if_pos hfl] at hcur2
              have hmap : ∀ (T C : List Char), (∀ ch ∈ T, P ch) → (∀ ch ∈ C, P ch) →
                  (wrapChineseGo maxLen (toChars "- ") (toChars "  ") fuel T C).map
                    (fun ls0 => rstrip cur :: ls0) = some ls →
                  ∀ l0 ∈ ls, ∀ ch ∈ l0, P ch := by
                intro T C hT hC hm
                cases hrec : wrapChineseGo maxLen (toChars "- ") (toChars "  ") fuel T C with
                | none => rw [hrec] at hm; simp at hm
                | some ls' =>
                    rw [hrec] at hm
                    simp only [Option.map_some', Option.some.injEq] at hm
                    subst hm
                    intro l0 hl
                    rcases List.mem_cons.mp hl with heq | hl
                    · rw [heq]; exact hrstrip cur hcurP
                    · exact ih T C ls' hT hC hrec l0 hl
              cases hr2 : (c :: rest).dropWhile (fun ch => !(isCnDelim ch)) with
              | nil =>
                  rw [hr2] at hrun
                  dsimp only at hrun
                  exact hmap _ _ (by simp) hcur2 hrun
              | cons sp rest3 =>
                  have hsp3 : ∀ ch ∈ rest3, P ch := by
                    intro ch hch
                    refine hdropP ch ?_
                    rw [hr2]
                    exact List.mem_cons_of_mem _ hch
                  rw [hr2] at hrun
                  dsimp only at hrun
                  by_cases hsp : (sp == ' ' || sp == '\t') = true
                  · rw [if_pos hsp] at hrun
                    dsimp only at hrun
                    exact hmap _ _ hsp3 (happend _ _ hcur2 (by
                      intro ch hch
                      simp at hch
                      rw [hch]; exact hP2)) hrun
                  · rw [if_neg hsp] at hrun
                    dsimp only at hrun
                    refine hmap _ _ ?_ hcur2 hrun
                    intro ch hch
                    refine hdropP ch ?_
                    rw [hr2]
                    exact hch
            · rw [if_neg hfl, if_neg hfl] at hrun
              rw [if_neg hfl] at hcur2
              cases hr2 : (c :: rest).dropWhile (fun ch => !(isCnDelim ch)) with
              | nil =>
                  rw [hr2] at hrun
                  dsimp only at hrun
                  exact ih _ _ ls (by simp) hcur2 hrun
              | cons sp rest3 =>
                  have hsp3 : ∀ ch ∈ rest3, P ch := by
                    intro ch hch
                    refine hdropP ch ?_
                    rw [hr2]
                    exact List.mem_cons_of_mem _ hch
                  rw [hr2] at hrun
                  dsimp only at hrun
                  by_cases hsp : (sp == ' ' || sp == '\t') = true
                  · rw [if_pos hsp] at hrun
                    dsimp only at hrun
                    refine ih _ _ ls hsp3 (happend _ _ hcur2 (by
                      intro ch hch
                      simp at hch
                      rw [hch]; exact hP2)) hrun
                  · rw [if_neg hsp] at hrun
                    dsimp only at hrun
                    refine ih _ _ ls ?_ hcur2 hrun
                    intro ch hch
                    refine hdropP ch ?_
                    rw [hr2]
                    exact hch

theorem wrap_chinese_text_chars (P : Char → Prop) (hP1 : P '-') (hP2 : P ' ')
    (text : List Char) (maxLen : Nat) (htext : ∀ ch ∈ text, P ch)
    (ls : List (List Char)) (h : wrap_chinese_text text maxLen = some ls) :
    ∀ l0 ∈ ls, ∀ ch ∈ l0, P ch := by
  unfold wrap_chinese_text at h
  by_cases ht : text = []
  · rw [if_pos ht] at h
    simp only [Option.some.injEq] at h
    subst h
    intro l0 hl
    simp at hl
  · rw [if_neg ht] at h
    refine wrapChineseGo_chars maxLen P hP1 hP2 _ text (toChars "- ") ls htext ?_ h
    intro ch hch
    rcases List.mem_cons.mp hch with heq | hch
    · rw [heq]; exact hP1
    · simp at hch
      rw [hch]; exact hP2

theorem wrap_chinese_text_budget (text : List Char) (maxLen : Nat) (hml : 1 ≤ maxLen)
    (ls : List (List Char)) (h : wrap_chinese_text text maxLen = some ls) :
    ∀ l0 ∈ ls, cnLineOk maxLen l0 := by
  unfold wrap_chinese_text at h
  by_cases ht : text = []
  · rw [if_pos ht] at h
    simp only [Option.some.injEq] at h
    subst h
    intro l0 hl
    simp at hl
  · rw [if_neg ht] at h
    refine wrapChineseGo_budget maxLen hml _ text (toChars "- ") ls ?_ h
    left
    have : rstrip (toChars "- ") = ['-'] := by decide
    rw [this]
    simpa using hml

theorem processCnItem_budget (m : Nat) (hml : 1 ≤ m) (item : List Char)
    (ls : List (List Char)) (h : processCnItem m item = some ls) :
    ∀ l0 ∈ ls, cnLineOk m l0 := by
  unfold processCnItem at h
  dsimp only at h
  split at h
  · split at h
    · split at h
      · simp only [Option.some.injEq] at h
        subst h
        intro l0 hl
        simp at hl
      · exact wrap_chinese_text_budget _ m hml ls h
    · split at h
      · simp only [Option.some.injEq] at h
        subst h
        intro l0 hl
        simp at hl
      · exact wrap_chinese_text_budget _ m hml ls h
  · simp only [Option.some.injEq] at h
    subst h
    intro l0 hl
    simp at hl

theorem foldrSugg_mem (m : Nat) (items : List (List Char)) :
    ∀ (sls : List (List Char)),
      items.foldr (fun item acc =>
        match processCnItem m item, acc with
        | some ls, some a => some (ls ++ a)
        | _, _ => none) (some []) = some sls →
      ∀ l0 ∈ sls, ∃ item ls', processCnItem m item = some ls' ∧ l0 ∈ ls' := by
  induction items with
  | nil =>
      intro sls h
      simp only [List.foldr_nil, Option.some.injEq] at h
      subst h
      intro l0 hl
      simp at hl
  | cons it rest ih =>
      intro sls h
      rw [List.foldr_cons] at h
      cases hit : processCnItem m it with
      | none =>
          rw [hit] at h
          exact absurd h (by simp)
      | some ls1 =>
          cases hacc : rest.foldr (fun item acc =>
              match processCnItem m item, acc with
              | some ls, some a => some (ls ++ a)
              | _, _ => none) (some []) with
          | none =>
              rw [hit, hacc] at h
              exact absurd h (by simp)
          | some a =>
              rw [hit, hacc] at h
              dsimp only at h
              simp only [Option.some.injEq] at h
              subst h
              intro l0 hl
              rcases List.mem_append.mp hl with hl | hl
              · exact ⟨it, ls1, hit, hl⟩
              · exact ih a hacc l0 hl

theorem wrap_text_lines_chinese_budget (d s : List Char) (m : Nat) (hml : 1 ≤ m)
    (out : List (List Char)) (h : wrap_text_lines_chinese d s m = some out) :
    ∀ l0 ∈ out, l0 ≠ toChars "描述:" → l0 ≠ toChars "建議:" → cnLineOk m l0 := by
  unfold wrap_text_lines_chinese at h
  dsimp only at h
  cases hdl : (if d ≠ [] then wrap_chinese_text (pyStrip d) m else some []) with
  | none =>
      rw [hdl] at h
      exact absurd h (by simp)
  | some dls =>
      rw [hdl] at h
      have hdls : ∀ l0 ∈ dls, cnLineOk m l0 := by
        by_cases hd0 : d ≠ []
        · rw [if_pos hd0] at hdl
          exact wrap_chinese_text_budget _ m hml dls hdl
        · rw [if_neg hd0] at hdl
          simp only [Option.some.injEq] at hdl
          subst hdl
          intro l0 hl
          simp at hl
      cases hsl : ((splitOnChar '\n'
          (if pyStrip s = [] ∨ pyStrip s ∈ cnPlaceholders then toChars "請及時處理"
           else pyStrip s)).foldr (fun item acc =>
            match processCnItem m item, acc with
            | some ls, some a => some (ls ++ a)
            | _, _ => none) (some [])) with
      | none =>
          rw [hsl] at h
          exact absurd h (by simp)
      | some sls =>
          rw [hsl] at h
          dsimp only at h
          have hsls : ∀ l0 ∈ sls, cnLineOk m l0 := by
            intro l0 hl
            obtain ⟨item, ls', hitem, hl'⟩ := foldrSugg_mem m _ sls hsl l0 hl
            exact processCnItem_budget m hml item ls' hitem l0 hl'
          have hwrapped : ∀ l0 ∈ toChars "描述:" :: dls ++ toChars "建議:" :: sls,
              l0 ≠ toChars "描述:" → l0 ≠ toChars "建議:" → cnLineOk m l0 := by
            intro l0 hl h1 h2
            rcases List.mem_cons.mp hl with heq | hl
            · exact absurd heq h1
            rcases List.mem_append.mp hl with hl | hl
            · exact hdls l0 hl
            rcases List.mem_cons.mp hl with heq | hl
            · exact absurd heq h2
            · exact hsls l0 hl
          split at h
          · cases hex : wrap_chinese_text (toChars "請及時處理") m with
            | none =>
                rw [hex] at h
                exact absurd h (by simp)
            | some extra =>
                rw [hex] at h
                dsimp only at h
                simp only [Option.some.injEq] at h
                subst h
                intro l0 hl h1 h2
                rcases List.mem_append.mp hl with hl | hl
                · exact hwrapped l0 hl h1 h2
                · exact wrap_chinese_text_budget _ m hml extra hex l0 hl
          · simp only [Option.some.injEq] at h
            subst h
            exact hwrapped

/-- C7 (amended): a body line of the English wrapper whose trimmed length
exceeds the budget always consists of the bullet or indent prefix plus one
single word, which is thus emitted on its own line rather than dropped; a
line of the Chinese wrapper (when the wrap loop terminates, with a budget of
at least 1) whose right-stripped character count exceeds the budget likewise
consists of the bullet or indent prefix plus one single delimiter-free token
(up to a trailing space). Lines within budget are unconstrained; headers are
exempt. -/
theorem wrap_line_budget_amended :
    (∀ (description suggestion : List Char) (max_chars : Nat) (language : List Char),
      ∀ l0 ∈ wrap_text_lines description suggestion max_chars language,
        l0 ≠ (if language = toChars "chinese" then toChars "描述:"
              else toChars "Description:") →
        l0 ≠ (if language = toChars "chinese" then toChars "建議:"
              else toChars "Suggestion:") →
        fitsOrSingleWord (if language = toChars "chinese" then 30 else max_chars) l0)
    ∧ (∀ (description suggestion : List Char) (m : Nat), 1 ≤ m →
        ∀ out, wrap_text_lines_chinese description suggestion m = some out →
        ∀ l0 ∈ out, l0 ≠ toChars "描述:" → l0 ≠ toChars "建議:" → cnLineOk m l0) :=
  ⟨wrap_text_lines_budget,
    fun d s m hm out h => wrap_text_lines_chinese_budget d s m hm out h⟩

/-- Witness for `wrap_line_budget_amended`: an over-budget English bullet line
is a prefix-plus-single-word line, and a concrete Chinese wrap is within
budget. -/
theorem wrap_line_budget_amended_witness :
    ((toChars "- Abcd") ∈ wrap_text_lines (toChars "Abcd x") [] 3 (toChars "english")
      ∧ fitsOrSingleWord 3 (toChars "- Abcd"))
    ∧ (wrap_text_lines_chinese (toChars "門未關") (toChars "定期檢查") 25
        = some [toChars "描述:", toChars "- 門未關", toChars "建議:", toChars "- 定期檢查"]
      ∧ cnLineOk 25 (toChars "- 門未關")) :=
  ⟨⟨by decide,
    wrap_line_budget_amended.1 (toChars "Abcd x") [] 3 (toChars "english")
      (toChars "- Abcd") (by decide) (by decide) (by decide)⟩,
   ⟨by decide,
    wrap_line_budget_amended.2 (toChars "門未關") (toChars "定期檢查") 25 (by decide)
      [toChars "描述:", toChars "- 門未關", toChars "建議:", toChars "- 定期檢查"]
      (by decide) (toChars "- 門未關") (by decide) (by decide) (by decide)⟩⟩

theorem no_placeholder_substr (l0 : List Char)
    (hcl : ∀ ch ∈ l0, ch ≠ '.' ∧ ch ≠ '。') :
    ∀ q ∈ cnPlaceholders, hasSubstr l0 q = false := by
  intro q hq
  simp [cnPlaceholders] at hq
  by_contra hs
  have hs' : hasSubstr l0 q = true := by
    cases hb : hasSubstr l0 q
    · exact absurd hb hs
    · rfl
  rcases hq with rfl | rfl | rfl | rfl
  · exact (hcl '.' (hasSubstr_chars _ _ hs' '.' (by decide))).1 rfl
  · exact (hcl '.' (hasSubstr_chars _ _ hs' '.' (by decide))).1 rfl
  · exact (hcl '.' (hasSubstr_chars _ _ hs' '.' (by decide))).1 rfl
  · exact (hcl '。' (hasSubstr_chars _ _ hs' '。' (by decide))).2 rfl

/-- C4 (amended): in the Chinese wrapper (`qwen_description_chinese.py`),
an empty or placeholder suggestion is replaced by the fixed fallback
`請及時處理`: the output contains the fallback bullet line, and (for a
description free of `'.'` and `'。'`) no output line contains any of the
placeholder strings. The English wrapper has no such fallback (see the
counterexample). -/
theorem placeholder_fallback_chinese_amended (d p : List Char)
    (out : List (List Char)) (hp : p ∈ cnPlaceholders ∨ p = [])
    (hd1 : ('.' : Char) ∉ d) (hd2 : ('。' : Char) ∉ d)
    (hout : wrap_text_lines_chinese d p 25 = some out) :
    (toChars "- 請及時處理") ∈ out
    ∧ ∀ l0 ∈ out, ∀ q ∈ cnPlaceholders, hasSubstr l0 q = false := by
  have hsugg : (if pyStrip p = [] ∨ pyStrip p ∈ cnPlaceholders then toChars "請及時處理"
      else pyStrip p) = toChars "請及時處理" := by
    rcases hp with hp | rfl
    · simp only [cnPlaceholders, List.mem_cons, List.not_mem_nil, or_false] at hp
      rcases hp with rfl | rfl | rfl | rfl <;> rw [if_pos (by decide)]
    · rw [if_pos (by decide)]
  unfold wrap_text_lines_chinese at hout
  dsimp only at hout
  rw [hsugg] at hout
  have hslv : ((splitOnChar '\n' (toChars "請及時處理")).foldr (fun item acc =>
      match processCnItem 25 item, acc with
      | some ls, some a => some (ls ++ a)
      | _, _ => none) (some [])) = some [toChars "- 請及時處理"] := by decide
  rw [hslv] at hout
  cases hdl : (if d ≠ [] then wrap_chinese_text (pyStrip d) 25 else some []) with
  | none =>
      rw [hdl] at hout
      exact absurd hout (by simp)
  | some dls =>
      rw [hdl] at hout
      dsimp only at hout
      have hdclean : ∀ l0 ∈ dls, ∀ ch ∈ l0, ch ≠ '.' ∧ ch ≠ '。' := by
        by_cases hd0 : d ≠ []
        · rw [if_pos hd0] at hdl
          refine wrap_chinese_text_chars (fun ch => ch ≠ '.' ∧ ch ≠ '。')
            (by decide) (by decide) (pyStrip d) 25 ?_ dls hdl
          intro ch hch
          have hmem := pyStrip_subset d ch hch
          constructor
          · intro heq; rw [heq] at hmem; exact hd1 hmem
          · intro heq; rw [heq] at hmem; exact hd2 hmem
        · rw [if_neg hd0] at hdl
          simp only [Option.some.injEq] at hdl
          subst hdl
          intro l0 hl
          simp at hl
      have hwrapmem : (toChars "- 請及時處理")
          ∈ toChars "描述:" :: dls ++ toChars "建議:" :: [toChars "- 請及時處理"] := by
        simp
      have hwrapclean : ∀ l0 ∈ toChars "描述:" :: dls
            ++ toChars "建議:" :: [toChars "- 請及時處理"],
          ∀ ch ∈ l0, ch ≠ '.' ∧ ch ≠ '。' := by
        intro l0 hl
        rcases List.mem_cons.mp hl with heq | hl
        · rw [heq]; decide
        rcases List.mem_append.mp hl with hl | hl
        · exact hdclean l0 hl
        rcases List.mem_cons.mp hl with heq | hl
        · rw [heq]; decide
        · simp only [List.mem_singleton] at hl
          rw [hl]; decide
      split at hout
      · have hex : wrap_chinese_text (toChars "請及時處理") 25
            = some [toChars "- 請及時處理"] := by decide
        rw [hex] at hout
        dsimp only at hout
        simp only [Option.some.injEq] at hout
        subst hout
        constructor
        · exact List.mem_append.mpr (Or.inl hwrapmem)
        · intro l0 hl
          refine no_placeholder_substr l0 ?_
          rcases List.mem_append.mp hl with hl | hl
          · exact hwrapclean l0 hl
          · simp only [List.mem_singleton] at hl
            rw [hl]
            intro ch hch
            revert ch
            decide
      · simp only [Option.some.injEq] at hout
        subst hout
        exact ⟨hwrapmem, fun l0 hl => no_placeholder_substr l0 (hwrapclean l0 hl)⟩

/-- Witness for `placeholder_fallback_chinese_amended` at the spec's concrete
placeholder scenario. -/
theorem placeholder_fallback_chinese_amended_witness :
    wrap_text_lines_chinese (toChars "門未關") (toChars "-...，-...，-...") 25
      = some [toChars "描述:", toChars "- 門未關", toChars "建議:",
          toChars "- 請及時處理"]
    ∧ (toChars "- 請及時處理") ∈ [toChars "描述:", toChars "- 門未關",
        toChars "建議:", toChars "- 請及時處理"] :=
  ⟨by decide,
    (placeholder_fallback_chinese_amended (toChars "門未關")
      (toChars "-...，-...，-...")
      [toChars "描述:", toChars "- 門未關", toChars "建議:", toChars "- 請及時處理"]
      (Or.inl (by decide)) (by decide) (by decide) (by decide)).1⟩

end QwenDesc
